import Mathlib

set_option autoImplicit false

/-! Shallow embedding of the svn-to-git / hg-to-git history converter.

Byte strings are modelled as lists of characters.  The two revisions of
the content filter (filter.cxx) are embedded as pure state machines; the
repository router and commit emitter are embedded from
svn-fast-export.cxx and, where only the interface repository.hxx is
available, modelled from the specification. -/

namespace SvnToGit

abbrev Str : Type := List Char

/-! ## Content filter, newer revision (per-character tab machine)

The C++ class keeps `column`, `spaces_to_write` and `nonspace_appeared`
as member variables, so this state survives across `addData` calls. -/

structure FilterState where
  column : Nat
  spaces_to_write : Nat
  nonspace_appeared : Bool
deriving DecidableEq

inductive FilterType where
  | NO_FILTER
  | FILTER_OLD
  | FILTER_COMBINED
  | FILTER_ALL
deriving DecidableEq

/-- Embedding of `addDataLoopOld`: one character step of the FILTER_OLD
machine, returning the new state and the characters written to `dest`. -/
def addDataLoopOld (no_spaces : Nat) (s : FilterState) (what : Char) :
    FilterState × List Char :=
  if what = '\t' ∧ s.nonspace_appeared = false then
    ({ s with column := s.column + no_spaces,
              spaces_to_write := s.spaces_to_write + no_spaces }, [])
  else if what = ' ' then
    ({ s with column := s.column + 1,
              spaces_to_write := s.spaces_to_write + 1 }, [])
  else if what = '\n' then
    (⟨0, 0, false⟩, List.replicate s.spaces_to_write ' ' ++ ['\n'])
  else
    (⟨s.column + 1, 0, true⟩, List.replicate s.spaces_to_write ' ' ++ [what])

/-- Embedding of `addDataLoopCombined`. -/
def addDataLoopCombined (no_spaces : Nat) (s : FilterState) (what : Char) :
    FilterState × List Char :=
  if what = '\t' then
    if s.nonspace_appeared then
      ({ s with column := s.column + (no_spaces - s.column % no_spaces),
                spaces_to_write := s.spaces_to_write + (no_spaces - s.column % no_spaces) }, [])
    else
      ({ s with column := s.column + no_spaces,
                spaces_to_write := s.spaces_to_write + no_spaces }, [])
  else if what = ' ' then
    ({ s with column := s.column + 1,
              spaces_to_write := s.spaces_to_write + 1 }, [])
  else if what = '\n' then
    (⟨0, 0, false⟩, ['\n'])
  else
    (⟨s.column + 1, 0, true⟩, List.replicate s.spaces_to_write ' ' ++ [what])

/-- Embedding of `addDataLoopAll`; note that this loop never touches
`nonspace_appeared`. -/
def addDataLoopAll (no_spaces : Nat) (s : FilterState) (what : Char) :
    FilterState × List Char :=
  if what = '\t' then
    ({ s with column := s.column + (no_spaces - s.column % no_spaces),
              spaces_to_write := s.spaces_to_write + (no_spaces - s.column % no_spaces) }, [])
  else if what = ' ' then
    ({ s with column := s.column + 1,
              spaces_to_write := s.spaces_to_write + 1 }, [])
  else if what = '\n' then
    ({ s with column := 0, spaces_to_write := 0 }, ['\n'])
  else
    ({ s with column := s.column + 1, spaces_to_write := 0 },
      List.replicate s.spaces_to_write ' ' ++ [what])

/-- Run a per-character loop body over a whole chunk, accumulating the
written characters (the `for` loop inside `Filter::addData`). -/
def runLoop {σ : Type} (step : σ → Char → σ × List Char) :
    σ → List Char → σ × List Char
  | s, [] => (s, [])
  | s, c :: cs =>
    let p := step s c
    let q := runLoop step p.1 cs
    (q.1, p.2 ++ q.2)

/-- Embedding of the `Filter` object of the newer filter.cxx: the
configuration chosen by the constructor plus the mutable state. -/
structure Filter where
  spaces : Int
  type : FilterType
  st : FilterState
  data : List Char

/-- Loop body selected by the `switch` in `Filter::addData`. -/
def Filter.loopOf : FilterType → Nat → FilterState → Char → FilterState × List Char
  | FilterType.FILTER_OLD => addDataLoopOld
  | FilterType.FILTER_COMBINED => addDataLoopCombined
  | FilterType.FILTER_ALL => addDataLoopAll
  | FilterType.NO_FILTER => fun _ s _ => (s, [])

/-- Embedding of `Filter::addData(const char*, size_t)`. -/
def Filter.addData (f : Filter) (chunk : List Char) : Filter :=
  if f.type = FilterType.NO_FILTER ∨ f.spaces ≤ 0 then
    { f with data := f.data ++ chunk }
  else
    { f with st := (runLoop (Filter.loopOf f.type f.spaces.toNat) f.st chunk).1,
             data := f.data ++ (runLoop (Filter.loopOf f.type f.spaces.toNat) f.st chunk).2 }

/-! ## Content filter, older revision (src/filter.cxx)

Here the only state is the `tabs_to_spaces` flag: leading tabs become
four spaces, the flag is reset at each newline. -/

namespace FilterTabs

inductive FType where
  | NO_FILTER
  | FILTER_TABS
deriving DecidableEq

/-- One character of the loop inside `Filter::addDataFilterTabs`. -/
def step (tabs_to_spaces : Bool) (c : Char) : Bool × List Char :=
  if c = '\t' ∧ tabs_to_spaces then
    (tabs_to_spaces, [' ', ' ', ' ', ' '])
  else if c = '\n' then
    (true, [c])
  else if c = ' ' then
    (tabs_to_spaces, [c])
  else
    (false, [c])

/-- Embedding of the older `Filter` object. -/
structure Filter where
  tabs_to_spaces : Bool
  type : FType
  data : List Char

/-- Embedding of the older `Filter::addData`. -/
def Filter.addData (f : Filter) (chunk : List Char) : Filter :=
  match f.type with
  | FType.NO_FILTER => { f with data := f.data ++ chunk }
  | FType.FILTER_TABS =>
    { f with tabs_to_spaces := (runLoop step f.tabs_to_spaces chunk).1,
             data := f.data ++ (runLoop step f.tabs_to_spaces chunk).2 }

end FilterTabs

/-! ## Chunk invariance of the filters -/

theorem runLoop_append {σ : Type} (step : σ → Char → σ × List Char)
    (s : σ) (a b : List Char) :
    runLoop step s (a ++ b) =
      ((runLoop step (runLoop step s a).1 b).1,
        (runLoop step s a).2 ++ (runLoop step (runLoop step s a).1 b).2) := by
  induction a generalizing s with
  | nil => simp [runLoop]
  | cons c cs ih => simp [runLoop, ih, List.append_assoc]

theorem Filter.addData_nil (f : Filter) : f.addData [] = f := by
  unfold Filter.addData
  by_cases h : f.type = FilterType.NO_FILTER ∨ f.spaces ≤ 0 <;>
    simp [h, runLoop]

theorem Filter.addData_append (f : Filter) (a b : List Char) :
    f.addData (a ++ b) = (f.addData a).addData b := by
  unfold Filter.addData
  by_cases h : f.type = FilterType.NO_FILTER ∨ f.spaces ≤ 0 <;>
    simp [h, runLoop_append, List.append_assoc]

theorem filterTabs_addData_nil (f : FilterTabs.Filter) :
    f.addData [] = f := by
  obtain ⟨t, ty, d⟩ := f
  cases ty <;> simp [FilterTabs.Filter.addData, runLoop]

theorem filterTabs_addData_append (f : FilterTabs.Filter) (a b : List Char) :
    f.addData (a ++ b) = (f.addData a).addData b := by
  obtain ⟨t, ty, d⟩ := f
  cases ty <;> simp [FilterTabs.Filter.addData, runLoop_append, List.append_assoc]

/-- C8: for every filter configuration and every partition of the input
into consecutive chunks, feeding the chunks through successive `addData`
calls produces exactly the same filter (accumulated data and carried
state) as feeding the whole input in one call; this holds for both
revisions of filter.cxx. -/
theorem addData_chunk_invariant :
    (∀ (f : Filter) (chunks : List (List Char)),
        chunks.foldl Filter.addData f = f.addData chunks.flatten)
    ∧ (∀ (g : FilterTabs.Filter) (chunks : List (List Char)),
        chunks.foldl FilterTabs.Filter.addData g = g.addData chunks.flatten) := by
  constructor
  · intro f chunks
    induction chunks generalizing f with
    | nil => simp [Filter.addData_nil]
    | cons c cs ih =>
      rw [List.foldl_cons, ih, ← Filter.addData_append, List.flatten_cons]
  · intro g chunks
    induction chunks generalizing g with
    | nil => simp [filterTabs_addData_nil]
    | cons c cs ih =>
      rw [List.foldl_cons, ih, ← filterTabs_addData_append, List.flatten_cons]

/-- Filter used to exhibit the buffer-bound violation of `Filter::addData`. -/
def overflowFilter : Filter :=
  { spaces := 4, type := FilterType.FILTER_OLD, st := ⟨0, 0, false⟩, data := [] }

/-- C9: a single `addData` call can append more than `spaces * len` bytes
when `spaces_to_write` was carried over from an earlier call.  With
`spaces = 4`, feeding two tabs first (output: nothing, 8 pending spaces)
and then a one-byte chunk makes the second call write 9 bytes, although
its temporary buffer holds only `spaces * len = 4`. -/
theorem addData_exceeds_buffer :
    (overflowFilter.addData ['\t', '\t']).st.spaces_to_write = 8 ∧
      (overflowFilter.addData ['\t', '\t']).data.length = 0 ∧
      ((overflowFilter.addData ['\t', '\t']).addData ['x']).data.length = 9 ∧
      4 * 1 < 9 := by
  decide

/-- C10: at a newline, FILTER_COMBINED and FILTER_ALL discard the pending
end-of-line whitespace (they emit only the newline and reset the pending
counter), whereas FILTER_OLD writes the pending spaces out before the
newline; concrete runs illustrate the stripped trailing whitespace. -/
theorem newline_discards_pending_spec :
    (∀ (n : Nat) (s : FilterState),
        addDataLoopCombined n s '\n' = (⟨0, 0, false⟩, ['\n'])
        ∧ addDataLoopAll n s '\n' = ({ s with column := 0, spaces_to_write := 0 }, ['\n'])
        ∧ addDataLoopOld n s '\n' =
            (⟨0, 0, false⟩, List.replicate s.spaces_to_write ' ' ++ ['\n']))
    ∧ (runLoop (addDataLoopAll 4) ⟨0, 0, false⟩ ['a', ' ', '\t', '\n']).2 = ['a', '\n']
    ∧ (runLoop (addDataLoopCombined 4) ⟨0, 0, false⟩ ['a', ' ', '\t', '\n']).2 = ['a', '\n']
    ∧ (runLoop (addDataLoopOld 4) ⟨0, 0, false⟩ [' ', '\n']).2 = [' ', '\n'] := by
  refine ⟨?_, by decide, by decide, by decide⟩
  intro n s
  refine ⟨?_, ?_, ?_⟩ <;>
    simp [addDataLoopCombined, addDataLoopAll, addDataLoopOld]

/-! ## Repository model

Only repository.hxx (the interface) is in the sources; the bodies of
`Repository` and `Repositories` live in repository.cxx, which is not
present.  Those operations are therefore modelled from the
specification, faithful to its words; the compiled selector regex is
abstracted as a boolean predicate on filenames. -/

/-- Pending file change: the `file_changes` log only ever receives
modifications and deletions. -/
inductive ChangeOp where
  | modify (fname : Str) (mode : Str)
  | delete (fname : Str)
deriving DecidableEq

/-- One rendered change line of an emitted commit. -/
inductive Directive where
  | copy (rev : Nat) (src : Str) (dst : Str)
  | modify (fname : Str) (mode : Str)
  | delete (fname : Str)
deriving DecidableEq

def ChangeOp.toDirective : ChangeOp → Directive
  | ChangeOp.modify fname mode => Directive.modify fname mode
  | ChangeOp.delete fname => Directive.delete fname

/-- One emitted commit unit of a destination's output stream. -/
structure Commit where
  dest : Str
  branch : Str
  rev : Nat
  time : Nat
  author : Str
  message : Str
  changes : List Directive
deriving DecidableEq

/-- Embedding of the `Repository` object: name, compiled selector
(abstracted as a predicate), the two pending logs, the mark counter, the
branch ledger (`commits` maps a revision to the branch committed there,
or none) and registered tag metadata. -/
structure Repository where
  name : Str
  matchesF : Str → Bool
  file_changes : List ChangeOp
  path_copies : List (Nat × Str × Str)
  mark : Nat
  commits : Nat → Option Str
  tags : List (Str × Option Nat)

/-- Embedding of `Repository::deleteFile`: append a deletion to the
pending change log. -/
def Repository.deleteFile (r : Repository) (fname : Str) : Repository :=
  { r with file_changes := r.file_changes ++ [ChangeOp.delete fname] }

/-- Embedding of `Repository::modifyFile`: append a modification to the
pending change log, allocating a mark for the blob. -/
def Repository.modifyFile (r : Repository) (fname : Str) (mode : Str) : Repository :=
  { r with file_changes := r.file_changes ++ [ChangeOp.modify fname mode],
           mark := r.mark + 1 }

/-- Modelled from the spec: `recordCopy` appends to the separate copy
log, kept apart from the change log because copies must be materialized
before any same-revision delete of the source path (repository.cxx is
not in src/). -/
def Repository.copyPath (r : Repository) (rev : Nat) (src dst : Str) : Repository :=
  { r with path_copies := r.path_copies ++ [(rev, src, dst)] }

/-- Modelled from the spec: `Repository::commit` / `flushCommit`
(repository.cxx is not in src/).  A no-op when both pending logs are
empty and the commit is not forced; otherwise it emits one commit whose
change list is the copy directives first, then the modify/delete
operations in arrival order, clears the pending logs and sets the
ledger entry of the revision to the branch. -/
def Repository.commit (r : Repository) (author branch : Str) (rev time : Nat)
    (msg : Str) (force : Bool) : Repository × Option Commit :=
  if r.file_changes = [] ∧ r.path_copies = [] ∧ force = false then
    (r, none)
  else
    ({ r with file_changes := [], path_copies := [], mark := r.mark + 1,
              commits := fun n => if n = rev then some branch else r.commits n },
      some { dest := r.name, branch := branch, rev := rev, time := time,
             author := author, message := msg,
             changes := r.path_copies.map (fun q => Directive.copy q.1 q.2.1 q.2.2)
                          ++ r.file_changes.map ChangeOp.toDirective })

/-- Modelled from the spec: `Repository::findCommit` scans the ledger
backward from the given revision (inclusive), decrementing until an
entry equal to the branch is found or the start is reached; it returns
the nearest (largest index below or at the revision) match, or none
(repository.cxx is not in src/). -/
def findCommitLedger (ledger : Nat → Option Str) (branch : Str) : Nat → Option Nat
  | 0 => if ledger 0 = some branch then some 0 else none
  | r + 1 => if ledger (r + 1) = some branch then some (r + 1)
             else findCommitLedger ledger branch r

/-- Modelled from the spec: branch-ancestor resolution on a
destination's own ledger. -/
def Repository.findCommit (r : Repository) (from_ : Nat) (from_branch : Str) :
    Option Nat :=
  findCommitLedger r.commits from_branch from_

/-- Modelled from the spec: `Repositories::get` evaluates destinations
in registration order and yields the index of the first whose selector
matches the filename; none when no selector matches, in which case the
path is routed to no destination (repository.cxx is not in src/). -/
def Repositories.get : List Repository → Str → Option Nat
  | [], _ => none
  | r :: rs, fname =>
    if r.matchesF fname then some 0 else (Repositories.get rs fname).map (· + 1)

/-! ## C1: findCommit returns the largest matching revision, monotonically -/

theorem findCommitLedger_some_iff (L : Nat → Option Str) (b : Str) (r x : Nat) :
    findCommitLedger L b r = some x ↔
      x ≤ r ∧ L x = some b ∧ ∀ y, y ≤ r → L y = some b → y ≤ x := by
  induction r with
  | zero =>
    by_cases h0 : L 0 = some b
    · rw [findCommitLedger, if_pos h0]
      constructor
      · intro h
        obtain rfl : x = 0 := by injection h with h; omega
        exact ⟨le_refl 0, h0, fun y hy _ => hy⟩
      · rintro ⟨hx, -, -⟩
        obtain rfl : x = 0 := Nat.le_zero.mp hx
        rfl
    · rw [findCommitLedger, if_neg h0]
      constructor
      · intro h; exact absurd h (by simp)
      · rintro ⟨hx, hb, -⟩
        obtain rfl : x = 0 := Nat.le_zero.mp hx
        exact absurd hb h0
  | succ r ih =>
    by_cases h0 : L (r + 1) = some b
    · rw [findCommitLedger, if_pos h0]
      constructor
      · intro h
        obtain rfl : x = r + 1 := by injection h with h; omega
        exact ⟨le_refl _, h0, fun y hy _ => hy⟩
      · rintro ⟨hx, -, hmax⟩
        have h1 := hmax (r + 1) (le_refl _) h0
        obtain rfl : x = r + 1 := le_antisymm hx h1
        rfl
    · rw [findCommitLedger, if_neg h0, ih]
      constructor
      · rintro ⟨hx, hb, hmax⟩
        refine ⟨Nat.le_succ_of_le hx, hb, fun y hy hyb => ?_⟩
        rcases eq_or_lt_of_le hy with h1 | h1
        · exact absurd (h1 ▸ hyb) h0
        · exact hmax y (Nat.lt_succ_iff.mp h1) hyb
      · rintro ⟨hx, hb, hmax⟩
        have hx' : x ≤ r := by
          rcases eq_or_lt_of_le hx with h1 | h1
          · exact absurd (h1 ▸ hb) h0
          · exact Nat.lt_succ_iff.mp h1
        exact ⟨hx', hb, fun y hy hyb => hmax y (Nat.le_succ_of_le hy) hyb⟩

theorem findCommitLedger_none_iff (L : Nat → Option Str) (b : Str) (r : Nat) :
    findCommitLedger L b r = none ↔ ∀ y, y ≤ r → L y ≠ some b := by
  induction r with
  | zero =>
    by_cases h0 : L 0 = some b
    · rw [findCommitLedger, if_pos h0]
      constructor
      · intro h; exact absurd h (by simp)
      · intro hall; exact absurd h0 (hall 0 (le_refl 0))
    · rw [findCommitLedger, if_neg h0]
      constructor
      · intro _ y hy
        obtain rfl : y = 0 := Nat.le_zero.mp hy
        exact h0
      · intro _; rfl
  | succ r ih =>
    by_cases h0 : L (r + 1) = some b
    · rw [findCommitLedger, if_pos h0]
      constructor
      · intro h; exact absurd h (by simp)
      · intro hall; exact absurd h0 (hall (r + 1) (le_refl _))
    · rw [findCommitLedger, if_neg h0, ih]
      constructor
      · intro h y hy hyb
        rcases eq_or_lt_of_le hy with h1 | h1
        · exact h0 (h1 ▸ hyb)
        · exact h y (Nat.lt_succ_iff.mp h1) hyb
      · intro h y hy hyb
        exact h y (Nat.le_succ_of_le hy) hyb

theorem findCommitLedger_mono (L : Nat → Option Str) (b : Str) (r s x : Nat)
    (hrs : r ≤ s) (hx : findCommitLedger L b r = some x) :
    ∃ y, findCommitLedger L b s = some y ∧ x ≤ y := by
  have h1 := (findCommitLedger_some_iff L b r x).mp hx
  cases hfs : findCommitLedger L b s with
  | none =>
    exact absurd h1.2.1
      ((findCommitLedger_none_iff L b s).mp hfs x (le_trans h1.1 hrs))
  | some y =>
    have h2 := (findCommitLedger_some_iff L b s y).mp hfs
    exact ⟨y, rfl, h2.2.2 x (le_trans h1.1 hrs) h1.2.1⟩

/-- C1: for every destination, `findCommit(r, b)` returns the unique
largest revision at most `r` whose ledger entry equals `b` (none when no
such revision exists), and for fixed `b` the returned revision is
non-decreasing as `r` increases. -/
theorem findCommit_spec (r : Repository) (from_ x : Nat) (b : Str) :
    (r.findCommit from_ b = some x ↔
       x ≤ from_ ∧ r.commits x = some b ∧
         ∀ y, y ≤ from_ → r.commits y = some b → y ≤ x)
    ∧ (r.findCommit from_ b = none ↔ ∀ y, y ≤ from_ → r.commits y ≠ some b)
    ∧ (∀ s, from_ ≤ s → r.findCommit from_ b = some x →
         ∃ y, r.findCommit s b = some y ∧ x ≤ y) :=
  ⟨findCommitLedger_some_iff r.commits b from_ x,
   findCommitLedger_none_iff r.commits b from_,
   fun s hs hx => findCommitLedger_mono r.commits b from_ s x hs hx⟩

/-- Ledger used by the C1 witness: branch "m" committed at revision 2. -/
def ledgerW : Nat → Option Str := fun n => if n = 2 then some ['m'] else none

/-- Repository used by the witnesses of C1 and C6. -/
def repoW : Repository :=
  { name := ['w'], matchesF := fun _ => false, file_changes := [],
    path_copies := [], mark := 0, commits := ledgerW, tags := [] }

theorem findCommit_spec_witness :
    ∃ y, repoW.findCommit 7 ['m'] = some y ∧ 2 ≤ y :=
  (findCommit_spec repoW 5 2 ['m']).2.2 7 (by decide) (by decide)

/-! ## C3: copies are emitted before the modify/delete operations -/

/-- C3: every emitted commit lists all copy directives before every
modify/delete operation of the batch, and a copy of a path recorded
before a delete of that same path still produces the copy directive,
placed before the delete, in that commit. -/
theorem commit_copies_first (r : Repository) (author branch : Str)
    (rev time : Nat) (msg : Str) (force : Bool) :
    (∀ r' c, r.commit author branch rev time msg force = (r', some c) →
       ∃ cs ms, c.changes = cs ++ ms
         ∧ (∀ d ∈ cs, ∃ v s2 d2, d = Directive.copy v s2 d2)
         ∧ (∀ d ∈ ms, ∀ v s2 d2, d ≠ Directive.copy v s2 d2))
    ∧ (∀ (P src : Str) (v : Nat),
        ∃ r' c,
          ((r.copyPath v src P).deleteFile P).commit author branch rev time msg force
              = (r', some c)
          ∧ c.changes =
              (r.path_copies.map (fun q => Directive.copy q.1 q.2.1 q.2.2)
                  ++ [Directive.copy v src P])
                ++ (r.file_changes.map ChangeOp.toDirective
                  ++ [Directive.delete P])) := by
  constructor
  · intro r' c h
    rw [Repository.commit] at h
    split at h
    · exact absurd h (by simp)
    · simp only [Prod.mk.injEq, Option.some.injEq] at h
      refine ⟨r.path_copies.map (fun q => Directive.copy q.1 q.2.1 q.2.2),
              r.file_changes.map ChangeOp.toDirective, ?_, ?_, ?_⟩
      · rw [← h.2]
      · intro d hd
        obtain ⟨q, -, rfl⟩ := List.mem_map.mp hd
        exact ⟨q.1, q.2.1, q.2.2, rfl⟩
      · intro d hd v s2 d2 hne
        obtain ⟨op, -, rfl⟩ := List.mem_map.mp hd
        cases op <;> simp [ChangeOp.toDirective] at hne
  · intro P src v
    have hne : ((r.copyPath v src P).deleteFile P).file_changes ≠ [] := by
      simp [Repository.deleteFile, Repository.copyPath]
    rw [Repository.commit]
    rw [if_neg (by
      simp only [not_and]
      intro h1
      exact absurd h1 hne)]
    refine ⟨_, _, rfl, ?_⟩
    simp [Repository.deleteFile, Repository.copyPath, ChangeOp.toDirective]

/-- Repository used by the witness of C3: one pending modification. -/
def repoW3 : Repository :=
  { name := ['x'], matchesF := fun _ => true,
    file_changes := [ChangeOp.modify ['f'] ['6']],
    path_copies := [], mark := 1, commits := fun _ => none, tags := [] }

theorem commit_copies_first_witness :
    ∃ r' c,
      ((repoW3.copyPath 3 ['s'] ['p']).deleteFile ['p']).commit
          ['a'] ['m'] 4 9 ['l'] false = (r', some c)
      ∧ c.changes =
          ([] ++ [Directive.copy 3 ['s'] ['p']])
            ++ ([Directive.modify ['f'] ['6']] ++ [Directive.delete ['p']]) :=
  (commit_copies_first repoW3 ['a'] ['m'] 4 9 ['l'] false).2 ['p'] ['s'] 3

/-! ## C5: first-match routing, at most one destination per path -/

/-- C5: `Repositories::get` returns the first destination, in
registration order, whose selector matches the path (so at most one
destination receives a path), and returns none exactly when no selector
matches, in which case the path is routed to no destination. -/
theorem get_first_match_spec (repos : List Repository) (fname : Str) :
    (∀ i, Repositories.get repos fname = some i →
       ∃ r, repos[i]? = some r ∧ r.matchesF fname = true ∧
         ∀ j, j < i → ∀ r' : Repository, repos[j]? = some r' →
           r'.matchesF fname = false)
    ∧ (Repositories.get repos fname = none ↔
        ∀ (j : Nat) (r' : Repository), repos[j]? = some r' →
          r'.matchesF fname = false) := by
  induction repos with
  | nil =>
    refine ⟨fun i h => absurd h (by simp [Repositories.get]), ?_⟩
    simp [Repositories.get]
  | cons r rs ih =>
    by_cases hm : r.matchesF fname
    · constructor
      · intro i h
        rw [Repositories.get, if_pos hm] at h
        obtain rfl : i = 0 := by injection h with h; omega
        exact ⟨r, by simp, hm, fun j hj => absurd hj (by omega)⟩
      · rw [Repositories.get, if_pos hm]
        constructor
        · intro h; exact absurd h (by simp)
        · intro hall
          exact absurd hm (by simpa using hall 0 r (by simp))
    · have hm' : r.matchesF fname = false := by simpa using hm
      constructor
      · intro i h
        rw [Repositories.get, if_neg hm] at h
        obtain ⟨i', hi', rfl⟩ := Option.map_eq_some'.mp h
        obtain ⟨r', hr', hmr', hprev⟩ := ih.1 i' hi'
        refine ⟨r', by simpa using hr', hmr', ?_⟩
        intro j hj r'' hr''
        cases j with
        | zero =>
          rw [List.getElem?_cons_zero] at hr''
          obtain rfl : r'' = r := by injection hr'' with h; exact h.symm
          exact hm'
        | succ j' =>
          exact hprev j' (by omega) r'' (by simpa using hr'')
      · rw [Repositories.get, if_neg hm]
        constructor
        · intro h j r' hr'
          have h0 : Repositories.get rs fname = none := by
            cases hg : Repositories.get rs fname with
            | none => rfl
            | some k => rw [hg] at h; exact absurd h (by simp)
          cases j with
          | zero =>
            rw [List.getElem?_cons_zero] at hr'
            obtain rfl : r' = r := by injection hr' with h; exact h.symm
            exact hm'
          | succ j' => exact ih.2.mp h0 j' r' (by simpa using hr')
        · intro hall
          have h0 : Repositories.get rs fname = none :=
            ih.2.mpr (fun j r' hr' => hall (j + 1) r' (by simpa using hr'))
          rw [h0]; rfl

/-- Destinations used by the C5 witness: the first matches nothing, the
second matches everything. -/
def repoW5a : Repository :=
  { name := ['a'], matchesF := fun _ => false, file_changes := [],
    path_copies := [], mark := 0, commits := fun _ => none, tags := [] }

def repoW5b : Repository :=
  { name := ['b'], matchesF := fun _ => true, file_changes := [],
    path_copies := [], mark := 0, commits := fun _ => none, tags := [] }

theorem get_first_match_spec_witness :
    ∃ r, [repoW5a, repoW5b][1]? = some r ∧ r.matchesF ['f'] = true ∧
      ∀ j, j < 1 → ∀ r', [repoW5a, repoW5b][j]? = some r' →
        r'.matchesF ['f'] = false :=
  (get_first_match_spec [repoW5a, repoW5b] ['f']).1 1 (by decide)

/-! ## C6: an empty, unforced commit is a no-op -/

/-- C6: calling commit on a destination whose pending change log and
copy log are both empty, without the force flag, emits nothing and
leaves the destination's state (in particular its ledger entry for the
revision) unchanged. -/
theorem commit_noop_spec (r : Repository) (author branch : Str)
    (rev time : Nat) (msg : Str)
    (h1 : r.file_changes = []) (h2 : r.path_copies = []) :
    r.commit author branch rev time msg false = (r, none)
    ∧ (r.commit author branch rev time msg false).1.commits rev = r.commits rev
    ∧ (r.commit author branch rev time msg false).2 = none := by
  rw [Repository.commit, if_pos ⟨h1, h2, rfl⟩]
  exact ⟨rfl, rfl, rfl⟩

theorem commit_noop_spec_witness :
    repoW.commit ['a'] ['m'] 3 7 ['l'] false = (repoW, none)
    ∧ (repoW.commit ['a'] ['m'] 3 7 ['l'] false).1.commits 3 = repoW.commits 3
    ∧ (repoW.commit ['a'] ['m'] 3 7 ['l'] false).2 = none :=
  commit_noop_spec repoW ['a'] ['m'] 3 7 ['l'] rfl rfl

/-! ## C7: loading fails fatally exactly when zero valid destinations -/

/-- One destination definition line of the configuration. -/
structure RepoDef where
  name : Str
  pattern : Str
deriving DecidableEq

/-- Fresh destination built from a definition and its compiled selector. -/
def mkRepoOf (d : RepoDef) (m : Str → Bool) : Repository :=
  { name := d.name, matchesF := m, file_changes := [], path_copies := [],
    mark := 0, commits := fun _ => none, tags := [] }

/-- Modelled from the spec: `Repositories::load` (repository.cxx is not
in src/) parses the ordered destination definitions; `regcomp` abstracts
selector compilation, returning none exactly for an invalid pattern.  An
invalid pattern is a non-fatal error dropping only that destination; the
call reports success iff at least one valid destination results. -/
def Repositories.load (regcomp : Str → Option (Str → Bool))
    (defs : List RepoDef) : List Repository × Bool :=
  let repos := defs.filterMap (fun d => (regcomp d.pattern).map (mkRepoOf d))
  (repos, !repos.isEmpty)

/-- Outcome of the configuration-loading step of `crawl_revisions`. -/
inductive CrawlOutcome where
  | fatal
  | proceed (repos : List Repository)

/-- Embedding of the load check in `crawl_revisions`: when
`Repositories::load` reports failure the run aborts fatally, otherwise
it proceeds with the loaded destinations. -/
def crawl_revisions_load (regcomp : Str → Option (Str → Bool))
    (defs : List RepoDef) : CrawlOutcome :=
  let p := Repositories.load regcomp defs
  if p.2 = false then CrawlOutcome.fatal else CrawlOutcome.proceed p.1

/-- C7: the run aborts fatally exactly when zero valid destination
definitions result; an individually invalid selector pattern only drops
that destination while the remaining ones are kept, in order. -/
theorem load_fatal_spec (regcomp : Str → Option (Str → Bool))
    (defs : List RepoDef) :
    (crawl_revisions_load regcomp defs = CrawlOutcome.fatal ↔
       (Repositories.load regcomp defs).1 = [])
    ∧ (Repositories.load regcomp defs).1
        = defs.filterMap (fun d => (regcomp d.pattern).map (mkRepoOf d))
    ∧ ((Repositories.load regcomp defs).1 ≠ [] →
        crawl_revisions_load regcomp defs
          = CrawlOutcome.proceed (Repositories.load regcomp defs).1) := by
  refine ⟨?_, rfl, ?_⟩
  · unfold crawl_revisions_load Repositories.load
    cases h : defs.filterMap (fun d => (regcomp d.pattern).map (mkRepoOf d)) with
    | nil => simp [h]
    | cons a as => simp [h]
  · intro hne
    unfold crawl_revisions_load Repositories.load
    unfold Repositories.load at hne
    simp only at hne
    cases h : defs.filterMap (fun d => (regcomp d.pattern).map (mkRepoOf d)) with
    | nil => exact absurd h hne
    | cons a as => simp [h]

/-- Configuration used by the C7 witness: a single definition whose
pattern fails to compile. -/
def defsW : List RepoDef := [{ name := ['n'], pattern := ['('] }]

theorem load_fatal_spec_witness :
    crawl_revisions_load (fun _ => none) defsW = CrawlOutcome.fatal :=
  (load_fatal_spec (fun _ => none) defsW).1.mpr rfl

/-! ## Path splitting and branch/tag classification (svn-fast-export.cxx)

These functions are present in the sources and embedded from them; the
four layout strings are the static `trunk_base`, `trunk`, `branches`,
`tags` (mutable via the configuration, hence parameters here). -/

/-- Layout strings of the source repository. -/
structure Layout where
  trunk_base : Str
  trunk : Str
  branches : Str
  tags : Str

/-- Default values of the static layout strings. -/
def layout0 : Layout :=
  { trunk_base := "/trunk".toList, trunk := "/trunk/".toList,
    branches := "/branches/".toList, tags := "/tags/".toList }

/-- Embedding of the `TAG_TEMP_BRANCH` prefix for tag tracking branches. -/
def TAG_TEMP_BRANCH : Str := "tag-branches/".toList

/-- Embedding of `is_trunk`: the path starts with the trunk prefix. -/
def is_trunk (L : Layout) (path : Str) : Bool := L.trunk.isPrefixOf path

/-- Embedding of `is_branch`. -/
def is_branch (L : Layout) (path : Str) : Bool := L.branches.isPrefixOf path

/-- Embedding of `is_tag`. -/
def is_tag (L : Layout) (path : Str) : Bool := L.tags.isPrefixOf path

/-- Embedding of `split_into_branch_filename`: split a source path into
the branch it belongs to and the branch-relative filename; tags get the
tag tracking-branch prefix; none when the path belongs to no branch. -/
def split_into_branch_filename (L : Layout) (path : Str) : Option (Str × Str) :=
  if is_trunk L path then
    some ("master".toList, path.drop L.trunk.length)
  else if L.trunk_base = path then
    some ("master".toList, [])
  else
    match
      (if is_branch L path then some (([] : Str), path.drop L.branches.length)
       else if is_tag L path then some (TAG_TEMP_BRANCH, path.drop L.tags.length)
       else none) with
    | none => none
    | some (pre, tmp) =>
      match tmp.findIdx? (fun c => c == '/') with
      | some 0 => none
      | none => some (pre ++ tmp, [])
      | some (k + 1) => some (pre ++ tmp.take (k + 1), tmp.drop (k + 2))

/-- Embedding of the toplevel guard in `export_revision`: paths not
starting with a slash or with no further slash are ignored. -/
def toplevel_skip (path : Str) : Bool :=
  match path with
  | [] => true
  | c :: rest => !(c == '/') || !(rest.any (fun d => d == '/'))

/-- Kind of a changed path, from `svn_fs_path_change_t`. -/
inductive ChangeKind where
  | add
  | modify
  | delete
deriving DecidableEq

/-- One entry of `svn_fs_paths_changed`, together with the directory
flag and the copy source reported by `svn_fs_copied_from` (none when the
path was not copied). -/
structure PathEvent where
  path : Str
  is_dir : Bool
  kind : ChangeKind
  copyfrom : Option (Nat × Str)
deriving DecidableEq

/-- What `export_revision` does with one changed path. -/
inductive Action where
  | skip
  | createBranchOrTag (branching : Bool) (rev_from : Nat)
      (from_branch : Str) (this_branch : Str)
  | deleteHierarchy (path : Str)
  | decompose (rev_from : Nat) (path_from : Str) (fname : Str)
  | dumpBlob (fname : Str)
deriving DecidableEq

/-- Embedding of the per-path dispatch of `export_revision`: the
toplevel and split guards, the ignored-tag check, the branch/tag
creation detection on bare-root directory adds, and the ordinary
delete / directory-copy / blob handling. -/
def classify_path_change (L : Layout) (tagIgnored : Str → Bool)
    (e : PathEvent) : Action :=
  if toplevel_skip e.path then Action.skip
  else
    match split_into_branch_filename L e.path with
    | none => Action.skip
    | some (this_branch, fname) =>
      if is_tag L e.path ∧ tagIgnored this_branch then Action.skip
      else if e.is_dir = true ∧ e.kind = ChangeKind.add
          ∧ (is_branch L e.path ∨ is_tag L e.path) ∧ fname = [] then
        match e.copyfrom with
        | some (rev_from, path_from) =>
          match split_into_branch_filename L path_from with
          | some (from_branch, from_fname) =>
            if from_fname = [] then
              Action.createBranchOrTag (is_branch L e.path) rev_from
                from_branch this_branch
            else Action.skip
          | none => Action.skip
        | none => Action.skip
      else if e.kind = ChangeKind.delete then Action.deleteHierarchy e.path
      else if e.is_dir then
        match e.copyfrom with
        | some (rev_from, path_from) => Action.decompose rev_from path_from fname
        | none => Action.skip
      else Action.dumpBlob fname

/-- Modelled from the spec: `Repositories::createBranchOrTag`
(repository.cxx is not in src/) acts on every destination: it resolves
the parent via that destination's `findCommit(R, B)`, then either emits
a forced commit naming the new branch or registers tag metadata
referencing the resolved commit.  The second component records the
resolved parent per destination. -/
def Repositories.createBranchOrTag (branching : Bool) (from_ : Nat)
    (from_branch : Str) (author name_ : Str) (commit_id time : Nat)
    (log : Str) : List Repository → List Repository × List (Str × Option Nat)
  | [] => ([], [])
  | r :: rs =>
    let parent := r.findCommit from_ from_branch
    let r' := if branching
      then (r.commit author name_ commit_id time log true).1
      else { r with tags := r.tags ++ [(name_, parent)] }
    let q := Repositories.createBranchOrTag branching from_ from_branch
      author name_ commit_id time log rs
    (r' :: q.1, (r.name, parent) :: q.2)

/-- C4 (amended): a bare branch/tag-root directory add whose copy source
is itself a bare branch/tag root at revision R under branch B triggers
creation, with `createBranchOrTag` resolving the parent of every
destination via its `findCommit(R, B)`; a directory add/copy with a
non-empty relative filename and a copy source is decomposed into
per-file operations; but a bare-root add whose copy source does not
qualify, or a directory add/copy without a copy source, is skipped
outright rather than decomposed. -/
theorem classify_creation_spec (L : Layout) (tagIgnored : Str → Bool)
    (e : PathEvent) (this_branch fname : Str) :
    (∀ (R : Nat) (pfrom B : Str),
        toplevel_skip e.path = false →
        split_into_branch_filename L e.path = some (this_branch, []) →
        (is_tag L e.path = true → tagIgnored this_branch = false) →
        e.is_dir = true → e.kind = ChangeKind.add →
        (is_branch L e.path = true ∨ is_tag L e.path = true) →
        e.copyfrom = some (R, pfrom) →
        split_into_branch_filename L pfrom = some (B, []) →
        classify_path_change L tagIgnored e
          = Action.createBranchOrTag (is_branch L e.path) R B this_branch)
    ∧ (∀ (branching : Bool) (R commit_id time : Nat)
          (B author name_ log : Str) (repos : List Repository),
        (Repositories.createBranchOrTag branching R B author name_
            commit_id time log repos).2
          = repos.map (fun r => (r.name, r.findCommit R B)))
    ∧ (∀ (R : Nat) (pfrom : Str),
        toplevel_skip e.path = false →
        split_into_branch_filename L e.path = some (this_branch, fname) →
        (is_tag L e.path = true → tagIgnored this_branch = false) →
        fname ≠ [] →
        e.is_dir = true → e.kind = ChangeKind.add →
        e.copyfrom = some (R, pfrom) →
        classify_path_change L tagIgnored e
          = Action.decompose R pfrom fname) := by
  refine ⟨?_, ?_, ?_⟩
  · intro R pfrom B h1 h2 h4 h5 h6 h7 h8 h9
    have hni : ¬(is_tag L e.path = true ∧ tagIgnored this_branch = true) := by
      rintro ⟨ht, hi⟩
      exact absurd (h4 ht) (by simp [hi])
    have hcond : e.is_dir = true ∧ e.kind = ChangeKind.add
        ∧ (is_branch L e.path = true ∨ is_tag L e.path = true)
        ∧ ([] : Str) = [] := ⟨h5, h6, h7, rfl⟩
    simp only [classify_path_change, h1, h2, h8, h9, Bool.false_eq_true,
      if_false, if_neg hni, if_pos hcond, if_pos rfl]
    rw [if_pos ⟨h5, h6, h7, trivial⟩, if_pos trivial]
  · intro branching R commit_id time B author name_ log repos
    induction repos with
    | nil => rfl
    | cons r rs ih =>
      simp only [Repositories.createBranchOrTag, ih, List.map_cons]
  · intro R pfrom h1 h2 h4 hf h5 h6 h7
    have hni : ¬(is_tag L e.path = true ∧ tagIgnored this_branch = true) := by
      rintro ⟨ht, hi⟩
      exact absurd (h4 ht) (by simp [hi])
    have hnc : ¬(e.is_dir = true ∧ e.kind = ChangeKind.add
        ∧ (is_branch L e.path = true ∨ is_tag L e.path = true)
        ∧ fname = []) := by
      rintro ⟨-, -, -, hf0⟩
      exact hf hf0
    have hnd : ¬(e.kind = ChangeKind.delete) := by simp [h6]
    simp only [classify_path_change, h1, h2, h7, Bool.false_eq_true,
      if_false, if_neg hni, if_neg hnc, if_neg hnd, h5, if_true]
    rw [if_neg (by rintro ⟨-, -, -, hf0⟩; exact hf hf0)]

/-- Event used by the C4 witness: revision 7 copies `/trunk` at
revision 6 to create the branch `/branches/bar` (the scenario from the
specification). -/
def eventW4 : PathEvent :=
  { path := "/branches/bar".toList, is_dir := true,
    kind := ChangeKind.add, copyfrom := some (6, "/trunk".toList) }

theorem classify_creation_spec_witness :
    classify_path_change layout0 (fun _ => false) eventW4
      = Action.createBranchOrTag (is_branch layout0 eventW4.path) 6
          "master".toList "bar".toList :=
  (classify_creation_spec layout0 (fun _ => false) eventW4
      "bar".toList []).1 6 "/trunk".toList "master".toList
    (by decide) (by decide) (by decide) rfl rfl (by decide) rfl (by decide)

/-- C4 counterexample: a directory add of the bare branch root
`/branches/foo` copied from `/trunk/sub` (a source that is not a bare
branch/tag root) is skipped outright by `export_revision`; it is neither
a creation nor decomposed into per-file operations, contradicting the
claim that every non-creation directory add/copy is decomposed. -/
theorem classify_skip_cex :
    classify_path_change layout0 (fun _ => false)
        { path := "/branches/foo".toList, is_dir := true,
          kind := ChangeKind.add, copyfrom := some (3, "/trunk/sub".toList) }
      = Action.skip
    ∧ ∀ (R : Nat) (P f : Str),
        Action.skip ≠ Action.decompose R P f := by
  refine ⟨by decide, ?_⟩
  intro R P f h
  exact absurd h (by simp)

/-! ## Multi-branch commit splitting (main loop of `export_revision`)

The loop over one revision's changed paths accumulates a current branch;
when a path belonging to a different branch arrives, everything pending
is committed to the previous branch first (the sanity-check block), and
a final commit flushes the last branch.  Events here are the routed,
already-decomposed per-file operations. -/

/-- Default file mode used for modifications in this embedding. -/
def mode644 : Str := "644".toList

/-- One already-decomposed file event of a revision: the branch the
path belongs to, the branch-relative filename and the operation kind. -/
structure Event where
  branch : Str
  fname : Str
  isDel : Bool
deriving DecidableEq

/-- Pending change op recorded for an event. -/
def Event.op (e : Event) : ChangeOp :=
  if e.isDel then ChangeOp.delete e.fname else ChangeOp.modify e.fname mode644

/-- Apply one event to a repository's pending logs, as
`Repository::deleteFile` / `Repository::modifyFile` do. -/
def Event.apply (e : Event) (r : Repository) : Repository :=
  if e.isDel then r.deleteFile e.fname else r.modifyFile e.fname mode644

/-- Embedding of `Repositories::deleteFile` / `Repositories::modifyFile`:
the event goes to the first destination whose selector matches its
filename; a path matching no selector is dropped. -/
def applyEvent : List Repository → Event → List Repository
  | [], _ => []
  | r :: rs, e =>
    if r.matchesF e.fname then e.apply r :: rs else r :: applyEvent rs e

/-- Modelled from the spec: `Repositories::commit` (repository.cxx is
not in src/) flushes every destination that has pending state, all with
the same author, branch, revision, time and message. -/
def Repositories.commitAll (author branch : Str) (rev time : Nat) (msg : Str) :
    List Repository → List Repository × List Commit
  | [] => ([], [])
  | r :: rs =>
    let p := r.commit author branch rev time msg false
    let q := Repositories.commitAll author branch rev time msg rs
    (p.1 :: q.1, p.2.toList ++ q.2)

/-- State of the per-revision loop: destinations, the branch
accumulated so far (empty means none yet) and the no-changes flag. -/
structure LoopState where
  repos : List Repository
  branch : Str
  no_changes : Bool

/-- Embedding of the loop body of `export_revision`: the sanity check
committing everything so far when the branch changes, then the file
operation. -/
def stepEvent (author : Str) (rev time : Nat) (msg : Str)
    (st : LoopState) (e : Event) : LoopState × List Commit :=
  if st.branch = [] then
    ({ repos := applyEvent st.repos e, branch := e.branch,
       no_changes := false }, [])
  else if st.branch ≠ e.branch then
    let p := Repositories.commitAll author st.branch rev time msg st.repos
    ({ repos := applyEvent p.1 e, branch := e.branch,
       no_changes := false }, p.2)
  else
    ({ repos := applyEvent st.repos e, branch := st.branch,
       no_changes := false }, [])

/-- The loop of `export_revision` over all changed paths. -/
def runEvents (author : Str) (rev time : Nat) (msg : Str) :
    LoopState → List Event → LoopState × List Commit
  | st, [] => (st, [])
  | st, e :: es =>
    let p := stepEvent author rev time msg st e
    let q := runEvents author rev time msg p.1 es
    (q.1, p.2 ++ q.2)

/-- Final part of `export_revision`: when nothing changed (or no branch
was ever seen) nothing more is emitted, otherwise the last branch is
flushed. -/
def finishRun (author : Str) (rev time : Nat) (msg : Str)
    (p : LoopState × List Commit) : List Repository × List Commit :=
  if p.1.no_changes = true ∨ p.1.branch = [] then (p.1.repos, p.2)
  else
    ((Repositories.commitAll author p.1.branch rev time msg p.1.repos).1,
      p.2 ++ (Repositories.commitAll author p.1.branch rev time msg p.1.repos).2)

/-- Embedding of the commit-splitting behaviour of `export_revision`
over one revision's routed events. -/
def export_revision (author : Str) (rev time : Nat) (msg : Str)
    (repos : List Repository) (events : List Event) :
    List Repository × List Commit :=
  finishRun author rev time msg
    (runEvents author rev time msg ⟨repos, [], true⟩ events)

/-- Names and selectors of a destination list; routing and therefore
the expected output depend only on this part, which the loop never
changes. -/
def skeleton (repos : List Repository) : List (Str × (Str → Bool)) :=
  repos.map (fun r => (r.name, r.matchesF))

/-- Expected commits of one same-branch group of events: walking the
destinations in order, the first-match routed events of each
destination yield exactly one commit when non-empty, holding only that
destination's operations; the remaining events flow to the later
destinations. -/
def groupFlush (author : Str) (rev time : Nat) (msg : Str) (b : Str) :
    List Event → List (Str × (Str → Bool)) → List Commit
  | _, [] => []
  | es, (nm, m) :: rest =>
    (if es.filter (fun e => m e.fname) = [] then []
     else [{ dest := nm, branch := b, rev := rev, time := time,
             author := author, message := msg,
             changes := (es.filter (fun e => m e.fname)).map
               (fun e => e.op.toDirective) }])
      ++ groupFlush author rev time msg b
          (es.filter (fun e => !m e.fname)) rest

/-- Events of one revision, grouped into runs that share a branch. -/
def joinGroups (gs : List (Str × List Event)) : List Event :=
  (gs.map Prod.snd).flatten

/-- Well-formed grouping: every group is non-empty, carries a non-empty
branch name and contains exactly the events of that branch. -/
abbrev GroupsWF (gs : List (Str × List Event)) : Prop :=
  ∀ p ∈ gs, p.1 ≠ [] ∧ p.2 ≠ [] ∧ ∀ e ∈ p.2, e.branch = p.1

/-- Accumulate a run of events into one repository's pending log. -/
def foldOps (r : Repository) (es : List Event) : Repository :=
  es.foldl (fun r e => e.apply r) r

/-- Accumulate a run of routed events over all destinations. -/
def foldApply (repos : List Repository) (es : List Event) : List Repository :=
  es.foldl applyEvent repos

theorem Event.apply_name (e : Event) (r : Repository) :
    (e.apply r).name = r.name := by
  by_cases h : e.isDel <;>
    simp [Event.apply, h, Repository.deleteFile, Repository.modifyFile]

theorem Event.apply_matchesF (e : Event) (r : Repository) :
    (e.apply r).matchesF = r.matchesF := by
  by_cases h : e.isDel <;>
    simp [Event.apply, h, Repository.deleteFile, Repository.modifyFile]

theorem Event.apply_file_changes (e : Event) (r : Repository) :
    (e.apply r).file_changes = r.file_changes ++ [e.op] := by
  by_cases h : e.isDel <;>
    simp [Event.apply, Event.op, h, Repository.deleteFile, Repository.modifyFile]

theorem Event.apply_path_copies (e : Event) (r : Repository) :
    (e.apply r).path_copies = r.path_copies := by
  by_cases h : e.isDel <;>
    simp [Event.apply, h, Repository.deleteFile, Repository.modifyFile]

theorem applyEvent_nil (e : Event) : applyEvent [] e = [] := rfl

theorem foldApply_nil_ev (repos : List Repository) : foldApply repos [] = repos := rfl

theorem foldApply_cons_ev (repos : List Repository) (e : Event) (es : List Event) :
    foldApply repos (e :: es) = foldApply (applyEvent repos e) es := rfl

theorem foldApply_nil_repos (es : List Event) : foldApply [] es = [] := by
  induction es with
  | nil => rfl
  | cons e es ih => rw [foldApply_cons_ev, applyEvent_nil, ih]

theorem skeleton_applyEvent (repos : List Repository) (e : Event) :
    skeleton (applyEvent repos e) = skeleton repos := by
  induction repos with
  | nil => rfl
  | cons r rs ih =>
    by_cases h : r.matchesF e.fname
    · simp [applyEvent, h, skeleton, Event.apply_name, Event.apply_matchesF]
    · simp only [applyEvent, if_neg h, skeleton, List.map_cons]
      have := ih
      simp only [skeleton] at this
      rw [this]

theorem skeleton_foldApply (repos : List Repository) (es : List Event) :
    skeleton (foldApply repos es) = skeleton repos := by
  induction es generalizing repos with
  | nil => rfl
  | cons e es ih => rw [foldApply_cons_ev, ih, skeleton_applyEvent]

theorem commit_fst_name (r : Repository) (author branch : Str)
    (rev time : Nat) (msg : Str) (force : Bool) :
    ((r.commit author branch rev time msg force).1).name = r.name := by
  rw [Repository.commit]
  split <;> rfl

theorem commit_fst_matchesF (r : Repository) (author branch : Str)
    (rev time : Nat) (msg : Str) (force : Bool) :
    ((r.commit author branch rev time msg force).1).matchesF = r.matchesF := by
  rw [Repository.commit]
  split <;> rfl

theorem commit_fst_empty (r : Repository) (author branch : Str)
    (rev time : Nat) (msg : Str) (force : Bool) :
    ((r.commit author branch rev time msg force).1).file_changes = []
    ∧ ((r.commit author branch rev time msg force).1).path_copies = [] := by
  rw [Repository.commit]
  split
  · rename_i h
    exact ⟨h.1, h.2.1⟩
  · exact ⟨rfl, rfl⟩

theorem skeleton_commitAll (author branch : Str) (rev time : Nat) (msg : Str)
    (repos : List Repository) :
    skeleton ((Repositories.commitAll author branch rev time msg repos).1)
      = skeleton repos := by
  induction repos with
  | nil => rfl
  | cons r rs ih =>
    simp only [Repositories.commitAll, skeleton, List.map_cons]
    simp only [skeleton] at ih
    rw [ih, commit_fst_name, commit_fst_matchesF]

theorem commitAll_fst_empty (author branch : Str) (rev time : Nat) (msg : Str)
    (repos : List Repository) :
    ∀ r' ∈ (Repositories.commitAll author branch rev time msg repos).1,
      r'.file_changes = [] ∧ r'.path_copies = [] := by
  induction repos with
  | nil => intro r' h; exact absurd h (by simp [Repositories.commitAll])
  | cons r rs ih =>
    intro r' h
    simp only [Repositories.commitAll, List.mem_cons] at h
    rcases h with rfl | h
    · exact commit_fst_empty r author branch rev time msg false
    · exact ih r' h

theorem foldOps_nil (r : Repository) : foldOps r [] = r := rfl

theorem foldOps_cons (r : Repository) (e : Event) (es : List Event) :
    foldOps r (e :: es) = foldOps (e.apply r) es := rfl

theorem foldOps_file_changes (es : List Event) (r : Repository) :
    (foldOps r es).file_changes = r.file_changes ++ es.map Event.op := by
  induction es generalizing r with
  | nil => simp [foldOps_nil]
  | cons e es ih =>
    rw [foldOps_cons, ih, Event.apply_file_changes]
    simp

theorem foldOps_path_copies (es : List Event) (r : Repository) :
    (foldOps r es).path_copies = r.path_copies := by
  induction es generalizing r with
  | nil => rfl
  | cons e es ih => rw [foldOps_cons, ih, Event.apply_path_copies]

theorem foldOps_name (es : List Event) (r : Repository) :
    (foldOps r es).name = r.name := by
  induction es generalizing r with
  | nil => rfl
  | cons e es ih => rw [foldOps_cons, ih, Event.apply_name]

theorem foldApply_cons_repo (es : List Event) (r : Repository)
    (rs : List Repository) :
    foldApply (r :: rs) es
      = foldOps r (es.filter (fun e => r.matchesF e.fname))
          :: foldApply rs (es.filter (fun e => !r.matchesF e.fname)) := by
  induction es generalizing r rs with
  | nil => rfl
  | cons e es ih =>
    by_cases h : r.matchesF e.fname
    · rw [foldApply_cons_ev]
      show foldApply (applyEvent (r :: rs) e) es = _
      rw [show applyEvent (r :: rs) e = e.apply r :: rs from by
        simp [applyEvent, h]]
      rw [ih (e.apply r) rs]
      rw [Event.apply_matchesF]
      simp only [List.filter_cons, h, if_pos, Bool.not_true, foldOps_cons]
      simp
    · rw [foldApply_cons_ev]
      show foldApply (applyEvent (r :: rs) e) es = _
      rw [show applyEvent (r :: rs) e = r :: applyEvent rs e from by
        simp [applyEvent, h]]
      rw [ih r (applyEvent rs e)]
      have h' : r.matchesF e.fname = false := by simpa using h
      simp only [List.filter_cons, h', Bool.not_false, if_neg, cond_false]
      rw [← foldApply_cons_ev]
      simp

theorem commitAll_foldApply (author b : Str) (rev time : Nat) (msg : Str) :
    ∀ (repos : List Repository) (es : List Event),
      (∀ r ∈ repos, r.file_changes = [] ∧ r.path_copies = []) →
      (Repositories.commitAll author b rev time msg (foldApply repos es)).2
        = groupFlush author rev time msg b es (skeleton repos) := by
  intro repos
  induction repos with
  | nil =>
    intro es h
    rw [foldApply_nil_repos]
    rfl
  | cons r rs ih =>
    intro es h
    have hr := h r (List.mem_cons_self r rs)
    have hfc : (foldOps r (es.filter fun e => r.matchesF e.fname)).file_changes
        = (es.filter fun e => r.matchesF e.fname).map Event.op := by
      rw [foldOps_file_changes, hr.1, List.nil_append]
    have hpc : (foldOps r (es.filter fun e => r.matchesF e.fname)).path_copies
        = [] := by
      rw [foldOps_path_copies, hr.2]
    rw [foldApply_cons_repo]
    simp only [Repositories.commitAll]
    rw [ih (es.filter fun e => !r.matchesF e.fname)
      (fun r' hr' => h r' (List.mem_cons_of_mem r hr'))]
    have hsk : skeleton (r :: rs) = (r.name, r.matchesF) :: skeleton rs := rfl
    rw [hsk]
    simp only [groupFlush]
    by_cases hm : es.filter (fun e => r.matchesF e.fname) = []
    · rw [Repository.commit,
        if_pos ⟨by rw [hfc, hm]; rfl, hpc, rfl⟩, if_pos hm]
      rfl
    · rw [Repository.commit,
        if_neg (by
          rintro ⟨h1, -, -⟩
          rw [hfc] at h1
          exact hm (List.map_eq_nil_iff.mp h1)),
        if_neg hm]
      simp only [Option.toList_some, List.singleton_append, List.cons_append,
        List.nil_append]
      congr 1
      rw [foldOps_name, hpc, hfc]
      simp [List.map_map, Function.comp]

theorem runEvents_append (author : Str) (rev time : Nat) (msg : Str)
    (st : LoopState) (a c : List Event) :
    runEvents author rev time msg st (a ++ c)
      = ((runEvents author rev time msg
            (runEvents author rev time msg st a).1 c).1,
          (runEvents author rev time msg st a).2
            ++ (runEvents author rev time msg
                  (runEvents author rev time msg st a).1 c).2) := by
  induction a generalizing st with
  | nil => simp [runEvents]
  | cons e es ih => simp [runEvents, ih, List.append_assoc]

theorem runEvents_same_branch (author : Str) (rev time : Nat) (msg : Str)
    (b : Str) :
    ∀ (es : List Event) (st : LoopState),
      (∀ e ∈ es, e.branch = b) → st.branch = b →
      runEvents author rev time msg st es
        = (⟨foldApply st.repos es, b, st.no_changes && es.isEmpty⟩, []) := by
  intro es
  induction es with
  | nil =>
    intro st hall hst
    obtain ⟨sr, sb, sn⟩ := st
    simp only at hst
    subst hst
    simp [runEvents, foldApply_nil_ev]
  | cons e es ih =>
    intro st hall hst
    have he : e.branch = b := hall e (List.mem_cons_self e es)
    have hstep : stepEvent author rev time msg st e
        = ({ repos := applyEvent st.repos e, branch := b,
             no_changes := false }, []) := by
      rw [stepEvent]
      by_cases h0 : st.branch = []
      · rw [if_pos h0, he]
      · rw [if_neg h0, if_neg (by rw [hst, he]; simp), hst]
    simp only [runEvents, hstep]
    rw [ih { repos := applyEvent st.repos e, branch := b, no_changes := false }
      (fun x hx => hall x (List.mem_cons_of_mem e hx)) rfl]
    simp [foldApply_cons_ev]

theorem finishRun_snd_append (author : Str) (rev time : Nat) (msg : Str)
    (st : LoopState) (o1 o2 : List Commit) :
    (finishRun author rev time msg (st, o1 ++ o2)).2
      = o1 ++ (finishRun author rev time msg (st, o2)).2 := by
  by_cases h : st.no_changes = true ∨ st.branch = [] <;>
    simp [finishRun, h, List.append_assoc]

theorem runEvents_groups (author : Str) (rev time : Nat) (msg : Str) :
    ∀ (gs : List (Str × List Event)) (repos : List Repository) (bprev : Str),
      bprev ≠ [] →
      GroupsWF gs →
      List.Chain' (fun a c => a ≠ c) (bprev :: gs.map Prod.fst) →
      (finishRun author rev time msg
          (runEvents author rev time msg ⟨repos, bprev, false⟩ (joinGroups gs))).2
        = (Repositories.commitAll author bprev rev time msg repos).2
            ++ gs.flatMap (fun p =>
                groupFlush author rev time msg p.1 p.2 (skeleton repos)) := by
  intro gs
  induction gs with
  | nil =>
    intro repos bprev hb hwf hch
    simp only [joinGroups, List.map_nil, List.flatten_nil, runEvents]
    rw [finishRun, if_neg (by simp [hb])]
    simp
  | cons g gs ih =>
    intro repos bprev hb hwf hch
    obtain ⟨b, es⟩ := g
    obtain ⟨hbne, hesne, hall⟩ := hwf (b, es) (List.mem_cons_self _ _)
    rw [List.map_cons, List.chain'_cons] at hch
    obtain ⟨hadj, hch'⟩ := hch
    obtain ⟨e, es', rfl⟩ : ∃ e es', es = e :: es' := by
      cases es with
      | nil => exact absurd rfl hesne
      | cons x xs => exact ⟨x, xs, rfl⟩
    have he : e.branch = b := hall e (List.mem_cons_self e es')
    have hjoin : joinGroups ((b, e :: es') :: gs)
        = (e :: es') ++ joinGroups gs := by
      simp [joinGroups]
    have hstep : stepEvent author rev time msg ⟨repos, bprev, false⟩ e
        = ({ repos :=
               applyEvent
                 (Repositories.commitAll author bprev rev time msg repos).1 e,
             branch := b, no_changes := false },
           (Repositories.commitAll author bprev rev time msg repos).2) := by
      rw [stepEvent, if_neg (by simpa using hb),
        if_pos (by simpa [he] using hadj), he]
    have hrun1 : runEvents author rev time msg ⟨repos, bprev, false⟩ (e :: es')
        = (⟨foldApply
              (Repositories.commitAll author bprev rev time msg repos).1
              (e :: es'), b, false⟩,
           (Repositories.commitAll author bprev rev time msg repos).2) := by
      simp only [runEvents, hstep]
      rw [runEvents_same_branch author rev time msg b es'
        { repos :=
            applyEvent
              (Repositories.commitAll author bprev rev time msg repos).1 e,
          branch := b, no_changes := false }
        (fun x hx => hall x (List.mem_cons_of_mem e hx)) rfl]
      simp [foldApply_cons_ev]
    rw [hjoin, runEvents_append, hrun1]
    simp only []
    rw [finishRun_snd_append]
    rw [ih (foldApply
          (Repositories.commitAll author bprev rev time msg repos).1
          (e :: es')) b hbne
        (fun p hp => hwf p (List.mem_cons_of_mem _ hp)) hch']
    rw [commitAll_foldApply author b rev time msg _ (e :: es')
      (commitAll_fst_empty author bprev rev time msg repos)]
    rw [skeleton_commitAll, skeleton_foldApply, skeleton_commitAll]
    rw [List.flatMap_cons]

theorem export_groups_eq (author : Str) (rev time : Nat) (msg : Str)
    (repos : List Repository) (gs : List (Str × List Event))
    (hempty : ∀ r ∈ repos, r.file_changes = [] ∧ r.path_copies = [])
    (hwf : GroupsWF gs)
    (hch : List.Chain' (fun a c => a ≠ c) (gs.map Prod.fst)) :
    (export_revision author rev time msg repos (joinGroups gs)).2
      = gs.flatMap (fun p =>
          groupFlush author rev time msg p.1 p.2 (skeleton repos)) := by
  cases gs with
  | nil => simp [export_revision, joinGroups, runEvents, finishRun]
  | cons g gs =>
    obtain ⟨b, es⟩ := g
    obtain ⟨hbne, hesne, hall⟩ := hwf (b, es) (List.mem_cons_self _ _)
    rw [List.map_cons] at hch
    obtain ⟨e, es', rfl⟩ : ∃ e es', es = e :: es' := by
      cases es with
      | nil => exact absurd rfl hesne
      | cons x xs => exact ⟨x, xs, rfl⟩
    have he : e.branch = b := hall e (List.mem_cons_self _ _)
    have hjoin : joinGroups ((b, e :: es') :: gs)
        = (e :: es') ++ joinGroups gs := by
      simp [joinGroups]
    have hstep : stepEvent author rev time msg ⟨repos, [], true⟩ e
        = ({ repos := applyEvent repos e, branch := b,
             no_changes := false }, []) := by
      rw [stepEvent, if_pos rfl, he]
    have hrun1 : runEvents author rev time msg ⟨repos, [], true⟩ (e :: es')
        = (⟨foldApply repos (e :: es'), b, false⟩, []) := by
      simp only [runEvents, hstep]
      rw [runEvents_same_branch author rev time msg b es'
        { repos := applyEvent repos e, branch := b, no_changes := false }
        (fun x hx => hall x (List.mem_cons_of_mem e hx)) rfl]
      simp [foldApply_cons_ev]
    rw [export_revision, hjoin, runEvents_append, hrun1]
    simp only [List.nil_append, Prod.mk.eta]
    rw [runEvents_groups author rev time msg gs (foldApply repos (e :: es')) b
      hbne (fun p hp => hwf p (List.mem_cons_of_mem _ hp)) hch]
    rw [commitAll_foldApply author b rev time msg repos (e :: es') hempty]
    rw [skeleton_foldApply, List.flatMap_cons]

theorem groupFlush_mem (author : Str) (rev time : Nat) (msg : Str) (b : Str) :
    ∀ (sk : List (Str × (Str → Bool))) (es : List Event) (c : Commit),
      c ∈ groupFlush author rev time msg b es sk →
      c.author = author ∧ c.message = msg ∧ c.rev = rev ∧ c.branch = b
        ∧ c.dest ∈ sk.map Prod.fst := by
  intro sk
  induction sk with
  | nil =>
    intro es c hc
    exact absurd hc (by simp [groupFlush])
  | cons q rest ih =>
    intro es c hc
    obtain ⟨nm, m⟩ := q
    simp only [groupFlush] at hc
    rcases List.mem_append.mp hc with h | h
    · by_cases hm : es.filter (fun e => m e.fname) = []
      · rw [if_pos hm] at h
        exact absurd h (by simp)
      · rw [if_neg hm] at h
        simp only [List.mem_singleton] at h
        subst h
        exact ⟨rfl, rfl, rfl, rfl, by simp⟩
    · obtain ⟨h1, h2, h3, h4, h5⟩ := ih _ c h
      exact ⟨h1, h2, h3, h4, by simp only [List.map_cons]; exact List.mem_cons_of_mem _ h5⟩

theorem groupFlush_pairwise (author : Str) (rev time : Nat) (msg : Str) (b : Str) :
    ∀ (sk : List (Str × (Str → Bool))) (es : List Event),
      (sk.map Prod.fst).Nodup →
      (groupFlush author rev time msg b es sk).Pairwise
        (fun c c' => c.dest ≠ c'.dest) := by
  intro sk
  induction sk with
  | nil =>
    intro es hnd
    simp [groupFlush]
  | cons q rest ih =>
    intro es hnd
    obtain ⟨nm, m⟩ := q
    rw [List.map_cons, List.nodup_cons] at hnd
    simp only [groupFlush]
    apply List.pairwise_append.mpr
    refine ⟨?_, ih _ hnd.2, ?_⟩
    · by_cases hm : es.filter (fun e => m e.fname) = [] <;> simp [hm]
    · intro c hc c' hc'
      by_cases hm : es.filter (fun e => m e.fname) = []
      · rw [if_pos hm] at hc
        exact absurd hc (by simp)
      · rw [if_neg hm] at hc
        simp only [List.mem_singleton] at hc
        subst hc
        have h5 := (groupFlush_mem author rev time msg b rest _ c' hc').2.2.2.2
        intro hEq
        have hEq' : nm = c'.dest := hEq
        exact hnd.1 (by rw [hEq']; exact h5)

theorem flatMap_groupFlush_pairwise (author : Str) (rev time : Nat) (msg : Str)
    (sk : List (Str × (Str → Bool))) :
    ∀ (gs : List (Str × List Event)),
      (gs.map Prod.fst).Nodup →
      (sk.map Prod.fst).Nodup →
      (gs.flatMap (fun p =>
          groupFlush author rev time msg p.1 p.2 sk)).Pairwise
        (fun c c' => c.dest ≠ c'.dest ∨ c.branch ≠ c'.branch) := by
  intro gs
  induction gs with
  | nil =>
    intro h1 h2
    simp
  | cons g gs ih =>
    intro h1 h2
    rw [List.map_cons, List.nodup_cons] at h1
    rw [List.flatMap_cons]
    apply List.pairwise_append.mpr
    refine ⟨?_, ih h1.2 h2, ?_⟩
    · exact (groupFlush_pairwise author rev time msg g.1 sk g.2 h2).imp
        (fun h => Or.inl h)
    · intro c hc c' hc'
      have hcb := (groupFlush_mem author rev time msg g.1 sk g.2 c hc).2.2.2.1
      obtain ⟨p', hp', hcp'⟩ := List.mem_flatMap.mp hc'
      have hcb' :=
        (groupFlush_mem author rev time msg p'.1 sk p'.2 c' hcp').2.2.2.1
      right
      rw [hcb, hcb']
      intro hEq
      exact h1.1 (hEq ▸ List.mem_map_of_mem Prod.fst hp')

theorem groupFlush_complete (author : Str) (rev time : Nat) (msg : Str)
    (b : Str) :
    ∀ (sk : List (Str × (Str → Bool))) (es : List Event) (e : Event),
      e ∈ es → sk.any (fun q => q.2 e.fname) = true →
      ∃ c ∈ groupFlush author rev time msg b es sk,
        c.branch = b ∧ e.op.toDirective ∈ c.changes := by
  intro sk
  induction sk with
  | nil =>
    intro es e he hany
    exact absurd hany (by simp)
  | cons q rest ih =>
    intro es e he hany
    obtain ⟨nm, m⟩ := q
    by_cases hm : m e.fname
    · have hmem : e ∈ es.filter (fun e => m e.fname) :=
        List.mem_filter.mpr ⟨he, hm⟩
      have hne : es.filter (fun e => m e.fname) ≠ [] := by
        intro h0
        rw [h0] at hmem
        exact absurd hmem (by simp)
      refine ⟨{ dest := nm, branch := b, rev := rev, time := time,
                author := author, message := msg,
                changes := (es.filter (fun e => m e.fname)).map
                  (fun e => e.op.toDirective) }, ?_, rfl, ?_⟩
      · simp only [groupFlush]
        apply List.mem_append_left
        rw [if_neg hne]
        exact List.mem_singleton.mpr rfl
      · exact List.mem_map_of_mem _ hmem
    · have he' : e ∈ es.filter (fun e => !m e.fname) :=
        List.mem_filter.mpr ⟨he, by simp [hm]⟩
      have hany' : rest.any (fun q => q.2 e.fname) = true := by
        simpa [hm] using hany
      obtain ⟨c, hc, hcb, hcm⟩ :=
        ih (es.filter (fun e => !m e.fname)) e he' hany'
      refine ⟨c, ?_, hcb, hcm⟩
      simp only [groupFlush]
      exact List.mem_append_right _ hc

theorem skeleton_map_fst (repos : List Repository) :
    (skeleton repos).map Prod.fst = repos.map Repository.name := by
  simp [skeleton, List.map_map, Function.comp]

/-- C2 (amended): when the path events of one source revision arrive
grouped by branch (each branch's events contiguous), committing the
revision emits exactly one independent commit per (destination, branch)
pair with changes — the full characterization equation — each commit
carrying the unmodified message, author and revision and containing only
the operations first-match routed to its own destination; no two emitted
commits share a (destination, branch) pair, and every routed event
appears in a commit of its own branch.  (With interleaved branch order
the code instead emits one commit per contiguous same-branch run, so a
pair can receive several commits — see the counterexample.) -/
theorem export_revision_split_spec (author : Str) (rev time : Nat) (msg : Str)
    (repos : List Repository) (gs : List (Str × List Event))
    (hempty : ∀ r ∈ repos, r.file_changes = [] ∧ r.path_copies = [])
    (hwf : GroupsWF gs)
    (hbr : (gs.map Prod.fst).Nodup)
    (hnm : (repos.map Repository.name).Nodup) :
    (export_revision author rev time msg repos (joinGroups gs)).2
        = gs.flatMap (fun p =>
            groupFlush author rev time msg p.1 p.2 (skeleton repos))
    ∧ (∀ c ∈ (export_revision author rev time msg repos (joinGroups gs)).2,
        c.author = author ∧ c.message = msg ∧ c.rev = rev)
    ∧ ((export_revision author rev time msg repos (joinGroups gs)).2).Pairwise
        (fun c c' => c.dest ≠ c'.dest ∨ c.branch ≠ c'.branch)
    ∧ (∀ p ∈ gs, ∀ e ∈ p.2,
        (skeleton repos).any (fun q => q.2 e.fname) = true →
        ∃ c ∈ (export_revision author rev time msg repos (joinGroups gs)).2,
          c.branch = p.1 ∧ e.op.toDirective ∈ c.changes) := by
  have heq := export_groups_eq author rev time msg repos gs hempty hwf
    (List.Pairwise.chain' hbr)
  refine ⟨heq, ?_, ?_, ?_⟩
  · intro c hc
    rw [heq] at hc
    obtain ⟨p, hp, hcp⟩ := List.mem_flatMap.mp hc
    have h := groupFlush_mem author rev time msg p.1 (skeleton repos) p.2 c hcp
    exact ⟨h.1, h.2.1, h.2.2.1⟩
  · rw [heq]
    exact flatMap_groupFlush_pairwise author rev time msg (skeleton repos) gs
      hbr (by rw [skeleton_map_fst]; exact hnm)
  · intro p hp e hepe hany
    obtain ⟨c, hc, hcb, hcm⟩ := groupFlush_complete author rev time msg p.1
      (skeleton repos) p.2 e hepe hany
    refine ⟨c, ?_, hcb, hcm⟩
    rw [heq]
    exact List.mem_flatMap.mpr ⟨p, hp, hc⟩

/-- Destinations of the C2 witness: the first takes only the file "a",
the second takes everything else. -/
def repoWA : Repository :=
  { name := "ra".toList, matchesF := fun s => s == ['a'], file_changes := [],
    path_copies := [], mark := 0, commits := fun _ => none, tags := [] }

def repoWB : Repository :=
  { name := "rb".toList, matchesF := fun _ => true, file_changes := [],
    path_copies := [], mark := 0, commits := fun _ => none, tags := [] }

/-- Events of the C2 witness: branch A modifies files "a" and "b",
branch B deletes file "a" — grouped by branch. -/
def groupsW : List (Str × List Event) :=
  [(['A'], [⟨['A'], ['a'], false⟩, ⟨['A'], ['b'], false⟩]),
   (['B'], [⟨['B'], ['a'], true⟩])]

theorem export_revision_split_spec_witness :
    (export_revision ['u'] 5 9 ['l'] [repoWA, repoWB] (joinGroups groupsW)).2
      = [⟨"ra".toList, ['A'], 5, 9, ['u'], ['l'],
            [Directive.modify ['a'] mode644]⟩,
         ⟨"rb".toList, ['A'], 5, 9, ['u'], ['l'],
            [Directive.modify ['b'] mode644]⟩,
         ⟨"ra".toList, ['B'], 5, 9, ['u'], ['l'],
            [Directive.delete ['a']]⟩] :=
  ((export_revision_split_spec ['u'] 5 9 ['l'] [repoWA, repoWB] groupsW
      (by decide) (by decide) (by decide) (by decide)).1).trans (by decide)

/-- Destination of the C2 counterexample: a single catch-all repository. -/
def repoCex : Repository :=
  { name := ['r'], matchesF := fun _ => true, file_changes := [],
    path_copies := [], mark := 0, commits := fun _ => none, tags := [] }

/-- Interleaved events of the C2 counterexample: branches A, B, A. -/
def eventsCex : List Event :=
  [⟨['A'], ['f'], false⟩, ⟨['B'], ['g'], false⟩, ⟨['A'], ['h'], false⟩]

/-- C2 counterexample: a single revision whose path events touch
branches A, B, A in that order makes `export_revision` emit three
commits to the same destination, two of them for the same
(destination, branch) pair (r, A) — refuting "one independent commit
per (destination, branch) pair" as stated. -/
theorem export_revision_split_cex :
    ((export_revision ['u'] 5 9 ['l'] [repoCex] eventsCex).2.countP
        (fun c => c.dest == ['r'] && c.branch == ['A'])) = 2
    ∧ (export_revision ['u'] 5 9 ['l'] [repoCex] eventsCex).2.length = 3 := by
  decide

end SvnToGit
